import Mathlib

/-!
Shallow embedding of the Turing-machine simulator (`src/machine.rs`,
`src/machine/sep.rs`) and verification of its specification.

Rust `Vec<char>` is modelled as `List Char`, `usize` as `Nat`, `HashSet` as a
`List` used only through membership, and the `HashMap<(String, char), Transition>`
as an association list used only through key lookup.  The undo stack
(`Vec<Undo>` pushed/popped at the end) is modelled as a `List Undo` pushed and
popped at the head.  Rust operations that can panic (`tape[i]` out of bounds,
`usize` subtraction underflow) are modelled by the total Lean counterparts
(`List.getD`, `List.set` which is the identity out of bounds, truncated `Nat`
subtraction); the safety theorems below show the panicking situations never
arise on reachable machines, so on reachable machines the total model and the
Rust code agree.
-/

deriving instance DecidableEq for Except

namespace TM

/-- `Movement` from `sep.rs`: the two head movements of a transition. -/
inductive Movement where
  | R : Movement
  | L : Movement
deriving DecidableEq, Repr

/-- `Transition` from `sep.rs`: the action of a transition entry. -/
structure Transition where
  write_symbol : Char
  next_state : String
  move_to : Option Movement
deriving DecidableEq, Repr

/-- `Septuple` from `sep.rs`.  The hash sets are modelled as lists used
through membership only; `transition_map` is an association list from
`(state, symbol)` keys to transitions. -/
structure Septuple where
  alphabet : List Char
  blank_symbol : Char
  input_symbols : List Char
  states : List String
  initial_state : String
  final_states : List String
  transition_map : List ((String × Char) × Transition)
deriving DecidableEq, Repr

/-- `SepError` from `sep.rs`: the validation failures of a septuple. -/
inductive SepError where
  | BlankNotInAlph
  | InputNotSubAlph
  | InitNotInStates
  | FinalNotSubStates
  | TransitionStateNotInStates
  | TransitionSymbolNotInAlphabet
deriving DecidableEq, Repr

/-- The per-entry membership checks of `Septuple::valid`, in the order the
loop body of `sep.rs` performs them: key state, key symbol, the action's
`next_state`, the action's `write_symbol`. -/
def checkEntry (s : Septuple) (e : (String × Char) × Transition) : Except SepError Unit :=
  if e.1.1 ∉ s.states then .error .TransitionStateNotInStates
  else if e.1.2 ∉ s.alphabet then .error .TransitionSymbolNotInAlphabet
  else if e.2.next_state ∉ s.states then .error .TransitionStateNotInStates
  else if e.2.write_symbol ∉ s.alphabet then .error .TransitionSymbolNotInAlphabet
  else .ok ()

/-- The loop over the transition entries in `Septuple::valid`. -/
def checkEntries (s : Septuple) : List ((String × Char) × Transition) → Except SepError Unit
  | [] => .ok ()
  | e :: rest =>
    match checkEntry s e with
    | .error err => .error err
    | .ok () => checkEntries s rest

/-- `Septuple::valid` from `sep.rs`: the five structural invariants, checked
in order, returning the first violation. -/
def Septuple.valid (s : Septuple) : Except SepError Unit :=
  if s.blank_symbol ∉ s.alphabet then .error .BlankNotInAlph
  else if ¬ (∀ c ∈ s.input_symbols, c ∈ s.alphabet) then .error .InputNotSubAlph
  else if s.initial_state ∉ s.states then .error .InitNotInStates
  else if ¬ (∀ q ∈ s.final_states, q ∈ s.states) then .error .FinalNotSubStates
  else checkEntries s s.transition_map

/-- `Undo` from `machine.rs`: a reversal record.  The borrowed `&String` state
is modelled by value. -/
structure Undo where
  pop : Bool
  movement : Option Movement
  write : Char
  state : String
deriving DecidableEq, Repr

/-- `Machine` from `machine.rs`.  The `&Septuple` reference is modelled by
embedding the septuple as a field; no operation ever changes it. -/
structure Machine where
  septuple : Septuple
  current_position : Nat
  current_state : String
  tape : List Char
  undos : List Undo
deriving DecidableEq, Repr

/-- `Acceptance` from `machine.rs`. -/
inductive Acceptance where
  | Accepted
  | Rejected
deriving DecidableEq, Repr

/-- `InvalidSymbolError` from `machine.rs`. -/
structure InvalidSymbolError where
deriving DecidableEq, Repr

/-- `NoUndoError` from `machine.rs`. -/
structure NoUndoError where
deriving DecidableEq, Repr

/-- `Machine::new` from `machine.rs`: fails when the tape holds a symbol not
in `input_symbols`; an empty tape becomes `[blank_symbol]`. -/
def Machine.new (septuple : Septuple) (tape : List Char) :
    Except InvalidSymbolError Machine :=
  if ∃ symbol ∈ tape, symbol ∉ septuple.input_symbols then .error ⟨⟩
  else
    let tape := if tape.isEmpty then tape ++ [septuple.blank_symbol] else tape
    .ok { septuple := septuple
          tape := tape
          current_position := 0
          current_state := septuple.initial_state
          undos := [] }

/-- The association-list lookup standing for
`septuple.transition_map.get(&(state, symbol))`; key equality is structural
on the `(String, char)` pair, as in the `TransitionKey` trait. -/
def lookupTransition (map : List ((String × Char) × Transition)) (key : String × Char) :
    Option Transition :=
  match map with
  | [] => none
  | (k, t) :: rest => if k = key then some t else lookupTransition rest key

/-- `Machine::get_transition`: look up the transition for the current state
and the symbol under the head.  `tape[current_position]` panics in Rust when
out of bounds; here `getD` returns `'A'` there — the reachability invariant
below shows the index is always in bounds. -/
def Machine.get_transition (m : Machine) : Option Transition :=
  let current_symbol := m.tape.getD m.current_position 'A'
  lookupTransition m.septuple.transition_map (m.current_state, current_symbol)

/-- `Machine::in_final_state`. -/
def Machine.in_final_state (m : Machine) : Bool :=
  m.current_state ∈ m.septuple.final_states

/-- `Machine::limited_left`: the head is at position zero and the transition
moves left. -/
def Machine.limited_left (m : Machine) (transition : Transition) : Bool :=
  if m.current_position = 0 then
    match transition.move_to with
    | none => false
    | some movement => movement = Movement.L
  else false

/-- `Machine::acceptance`: `Accepted` in a final state, `Rejected` when no
transition exists or the machine is limited by the left bound, `none`
(running) otherwise. -/
def Machine.acceptance (m : Machine) : Option Acceptance :=
  if m.in_final_state then some .Accepted
  else
    match m.get_transition with
    | none => some .Rejected
    | some transition =>
      if m.limited_left transition then some .Rejected else none

/-- `Machine::apply` from `machine.rs`: perform the transition's write, state
change and head movement, returning the `Undo` record together with the
mutated machine.  `tape.len() - 1` and the `Movement::L` decrement use
truncated `Nat` subtraction, as explained at the top of the file. -/
def Machine.apply (m : Machine) (transition : Transition) : Undo × Machine :=
  let undo_write := m.tape.getD m.current_position 'A'
  let undo_state := m.current_state
  let tape := m.tape.set m.current_position transition.write_symbol
  match transition.move_to with
  | some Movement.R =>
    if m.current_position = tape.length - 1 then
      (⟨true, some Movement.L, undo_write, undo_state⟩,
       { m with tape := tape ++ [m.septuple.blank_symbol]
                current_state := transition.next_state
                current_position := m.current_position + 1 })
    else
      (⟨false, some Movement.L, undo_write, undo_state⟩,
       { m with tape := tape
                current_state := transition.next_state
                current_position := m.current_position + 1 })
  | some Movement.L =>
    (⟨false, some Movement.R, undo_write, undo_state⟩,
     { m with tape := tape
              current_state := transition.next_state
              current_position := m.current_position - 1 })
  | none =>
    (⟨false, none, undo_write, undo_state⟩,
     { m with tape := tape
              current_state := transition.next_state })

/-- `Machine::transition` from `machine.rs`: returns the terminal verdict
without mutation, or applies one transition, pushes its `Undo` record, and
returns `none`.  Modelled as the returned value paired with the machine after
the call. -/
def Machine.transition (m : Machine) : Option Acceptance × Machine :=
  if m.in_final_state then (some .Accepted, m)
  else
    match m.get_transition with
    | none => (some .Rejected, m)
    | some t =>
      if m.limited_left t then (some .Rejected, m)
      else
        let p := m.apply t
        (none, { p.2 with undos := p.1 :: m.undos })

/-- `Machine::undo_transition` from `machine.rs`: pop the most recent `Undo`
record (failing when none exists) and apply it: shrink the tape when it
recorded growth, apply the recorded movement, restore the recorded symbol and
state.  `Vec::pop` on the tape is `dropLast` (a no-op on an empty list, as in
Rust); the `Movement::L` decrement and the write `tape[pos] = c` are total
here, see the top of the file. -/
def Machine.undo_transition (m : Machine) : Except NoUndoError Unit × Machine :=
  match m.undos with
  | [] => (.error ⟨⟩, m)
  | undo :: rest =>
    let tape := if undo.pop then m.tape.dropLast else m.tape
    let pos :=
      match undo.movement with
      | some Movement.R => m.current_position + 1
      | some Movement.L => m.current_position - 1
      | none => m.current_position
    (.ok (), { m with tape := tape.set pos undo.write
                      current_position := pos
                      current_state := undo.state
                      undos := rest })

/-- Modelled from the spec (claim C8 wording): the per-entry membership
checks in the order the claim states them — key state, the action's
`next_state`, key symbol, the action's `write_symbol`.  This definition
follows the claim's words, to be compared with `checkEntry`, which follows
the source. -/
def checkEntryClaimOrder (s : Septuple) (e : (String × Char) × Transition) :
    Except SepError Unit :=
  if e.1.1 ∉ s.states then .error .TransitionStateNotInStates
  else if e.2.next_state ∉ s.states then .error .TransitionStateNotInStates
  else if e.1.2 ∉ s.alphabet then .error .TransitionSymbolNotInAlphabet
  else if e.2.write_symbol ∉ s.alphabet then .error .TransitionSymbolNotInAlphabet
  else .ok ()

/-- The entry loop of `Septuple::valid`, but with the per-entry order stated
by claim C8. -/
def checkEntriesClaimOrder (s : Septuple) :
    List ((String × Char) × Transition) → Except SepError Unit
  | [] => .ok ()
  | e :: rest =>
    match checkEntryClaimOrder s e with
    | .error err => .error err
    | .ok () => checkEntriesClaimOrder s rest

/-- Modelled from the spec (claim C8 wording): `Septuple::valid` as the claim
describes it, with the claimed per-entry check order. -/
def validClaimOrder (s : Septuple) : Except SepError Unit :=
  if s.blank_symbol ∉ s.alphabet then .error .BlankNotInAlph
  else if ¬ (∀ c ∈ s.input_symbols, c ∈ s.alphabet) then .error .InputNotSubAlph
  else if s.initial_state ∉ s.states then .error .InitNotInStates
  else if ¬ (∀ q ∈ s.final_states, q ∈ s.states) then .error .FinalNotSubStates
  else checkEntriesClaimOrder s s.transition_map

/-- The first violation of a single transition entry, in the amended order:
key state, key symbol, the action's `next_state`, the action's
`write_symbol`.  Spec-side formulation for the amended claim C8. -/
def entryViolation (s : Septuple) (e : (String × Char) × Transition) :
    Option SepError :=
  if e.1.1 ∉ s.states then some .TransitionStateNotInStates
  else if e.1.2 ∉ s.alphabet then some .TransitionSymbolNotInAlphabet
  else if e.2.next_state ∉ s.states then some .TransitionStateNotInStates
  else if e.2.write_symbol ∉ s.alphabet then some .TransitionSymbolNotInAlphabet
  else none

/-- Spec-side formulation of validation for the amended claim C8: the five
invariants in order, the transition entries scanned for their first
violation with the amended per-entry order. -/
def validSpecOrdered (s : Septuple) : Except SepError Unit :=
  if s.blank_symbol ∉ s.alphabet then .error .BlankNotInAlph
  else if ¬ (∀ c ∈ s.input_symbols, c ∈ s.alphabet) then .error .InputNotSubAlph
  else if s.initial_state ∉ s.states then .error .InitNotInStates
  else if ¬ (∀ q ∈ s.final_states, q ∈ s.states) then .error .FinalNotSubStates
  else
    match s.transition_map.findSome? (entryViolation s) with
    | some err => .error err
    | none => .ok ()

/-- `n` calls of `Machine::transition`, each required to return `None`
(the machine keeps running). -/
def runSteps : Machine → Nat → Option Machine
  | m, 0 => some m
  | m, n + 1 =>
    match m.transition with
    | (none, m₁) => runSteps m₁ n
    | (some _, _) => none

/-- `n` calls of `Machine::undo_transition`, each required to succeed. -/
def runUndos : Machine → Nat → Option Machine
  | m, 0 => some m
  | m, n + 1 =>
    match m.undo_transition with
    | (.ok _, m₁) => runUndos m₁ n
    | (.error _, _) => none

/-- The head position after applying the movement recorded in an `Undo`
record (the `match undo.movement` block of `undo_transition`). -/
def undoPos (pos : Nat) (u : Undo) : Nat :=
  match u.movement with
  | some Movement.R => pos + 1
  | some Movement.L => pos - 1
  | none => pos

/-- The tape and head position produced by popping one `Undo` record, exactly
as `undo_transition` computes them. -/
def rewind (tape : List Char) (pos : Nat) (u : Undo) : List Char × Nat :=
  ((if u.pop then tape.dropLast else tape).set (undoPos pos u) u.write,
   undoPos pos u)

/-- The operations `undo_transition` performs on an `Undo` record are
well defined: the `Movement::L` decrement never happens at position `0`
(no `usize` underflow), and the index written by
`tape[current_position] = undo.write` is in bounds. -/
def goodUndo (tape : List Char) (pos : Nat) (u : Undo) : Prop :=
  (u.movement = some Movement.L → 0 < pos) ∧
  undoPos pos u < (if u.pop then tape.dropLast else tape).length

/-- The undo ledger is coherent with the configuration: the head is in
bounds, and popping the records one by one only ever performs well-defined
operations. -/
def ValidStack : List Char → Nat → List Undo → Prop
  | tape, pos, [] => pos < tape.length
  | tape, pos, u :: rest =>
    pos < tape.length ∧ goodUndo tape pos u ∧
    ValidStack (rewind tape pos u).1 (rewind tape pos u).2 rest

/-- The machines reachable from `Machine::new` by any interleaving of
`transition` and `undo_transition` calls. -/
inductive Reachable (sep : Septuple) : Machine → Prop
  | new (tape : List Char) (m : Machine) :
      Machine.new sep tape = .ok m → Reachable sep m
  | step (m : Machine) : Reachable sep m → Reachable sep (m.transition).2
  | undo (m : Machine) : Reachable sep m → Reachable sep (m.undo_transition).2

/-- A small concrete septuple used by the witness theorems: on `a` in `q0`
write `b`, move right, go to the accepting state `q1`; on `b` in `q0` move
left (used to exhibit the left-bound rejection). -/
def sepW : Septuple :=
  { alphabet := ['a', 'b', 'B']
    blank_symbol := 'B'
    input_symbols := ['a']
    states := ["q0", "q1"]
    initial_state := "q0"
    final_states := ["q1"]
    transition_map :=
      [(("q0", 'a'), ⟨'b', "q1", some Movement.R⟩),
       (("q0", 'b'), ⟨'b', "q0", some Movement.L⟩)] }

/-- The machine `Machine::new(sepW, ['a'])` produces. -/
def mW0 : Machine :=
  { septuple := sepW
    current_position := 0
    current_state := "q0"
    tape := ['a']
    undos := [] }

/-- The machine after one `transition` call on `mW0`: the right move from the
last index grew the tape by one blank. -/
def mW1 : Machine :=
  { septuple := sepW
    current_position := 1
    current_state := "q1"
    tape := ['b', 'B']
    undos := [⟨true, some Movement.L, 'a', "q0"⟩] }

/-- A configuration at position `0` whose applicable transition moves left. -/
def mW2 : Machine :=
  { septuple := sepW
    current_position := 0
    current_state := "q0"
    tape := ['b']
    undos := [] }

/-- The transition `sepW` holds for `("q0", 'a')`. -/
def tW : Transition := ⟨'b', "q1", some Movement.R⟩

/-- A septuple whose single transition entry has its key symbol outside the
alphabet and its next state outside the state set: the entry-check order is
observable on it. -/
def sepC8 : Septuple :=
  { alphabet := ['a']
    blank_symbol := 'a'
    input_symbols := []
    states := ["q0"]
    initial_state := "q0"
    final_states := []
    transition_map := [(("q0", 'z'), ⟨'a', "qX", none⟩)] }

end TM
namespace TM

lemma set_getD_eq_self (l : List Char) (i : Nat) (d : Char) (h : i < l.length) :
    l.set i (l.getD i d) = l := by
  induction l generalizing i with
  | nil => simp at h
  | cons a t ih =>
    cases i with
    | zero => simp
    | succ n =>
      simp only [List.getD_cons_succ, List.set_cons_succ, List.cons.injEq, true_and]
      exact ih n (by simpa using h)

lemma in_final_state_iff (m : Machine) :
    m.in_final_state = true ↔ m.current_state ∈ m.septuple.final_states := by
  simp [Machine.in_final_state]

lemma limited_left_iff (m : Machine) (t : Transition) :
    m.limited_left t = true ↔ m.current_position = 0 ∧ t.move_to = some Movement.L := by
  unfold Machine.limited_left
  rcases h : t.move_to with _ | mv
  · split <;> simp_all
  · rcases mv <;> split <;> simp_all

lemma transition_fst (m : Machine) : (m.transition).1 = m.acceptance := by
  unfold Machine.transition Machine.acceptance
  cases hf : m.in_final_state <;> simp only [hf, Bool.false_eq_true, if_false, if_true]
  rcases h : m.get_transition with _ | t <;> simp only
  cases hl : m.limited_left t <;> simp

lemma transition_terminal (m : Machine) (a : Acceptance) (h : m.acceptance = some a) :
    m.transition = (some a, m) := by
  unfold Machine.acceptance at h
  unfold Machine.transition
  cases hf : m.in_final_state <;> simp only [hf, Bool.false_eq_true, if_false, if_true] at h ⊢
  · rcases hg : m.get_transition with _ | t <;> simp only [hg] at h ⊢
    · simp_all
    · cases hl : m.limited_left t <;> simp_all
  · simp_all

lemma transition_none_elim (m m' : Machine) (h : m.transition = (none, m')) :
    m.in_final_state = false ∧
    ∃ t, m.get_transition = some t ∧ m.limited_left t = false ∧
      m' = { (m.apply t).2 with undos := (m.apply t).1 :: m.undos } := by
  unfold Machine.transition at h
  cases hf : m.in_final_state <;> simp only [hf, Bool.false_eq_true, if_false, if_true] at h
  · rcases hg : m.get_transition with _ | t <;> simp only [hg] at h
    · simp at h
    · cases hl : m.limited_left t <;> simp only [hl, Bool.false_eq_true, if_false, if_true] at h
      · injection h with h1 h2
        exact ⟨rfl, t, rfl, hl, h2.symm⟩
      · simp at h
  · simp at h


/-- C7: `undo_transition` on an engine with an empty undo ledger returns
`Err(NoUndoError)` and leaves the tape, position, state and ledger completely
unchanged (the returned machine is the argument itself). -/
theorem undo_transition_empty_ledger (m : Machine) (h : m.undos = []) :
    m.undo_transition = (.error ⟨⟩, m) := by
  cases m with
  | mk sep pos st tp us =>
    simp only at h
    subst h
    rfl

/-- Witness for C7 at the freshly constructed machine `mW0`. -/
theorem undo_transition_empty_ledger_witness :
    mW0.undo_transition = (.error ⟨⟩, mW0) :=
  undo_transition_empty_ledger mW0 rfl

/-- C3: `acceptance()` returns `Accepted` exactly when the current state is a
final state; otherwise `Rejected` exactly when no transition exists for the
current state and symbol, or the head is at position `0` and the found
transition moves left; `Running` (`none`) exactly otherwise.  The three iffs
characterize the ordered evaluation completely; `acceptance` is a pure
function of the configuration, so repeated calls return the same answer and
mutate nothing. -/
theorem acceptance_characterization (m : Machine) :
    (m.acceptance = some Acceptance.Accepted ↔ m.current_state ∈ m.septuple.final_states)
  ∧ (m.acceptance = some Acceptance.Rejected ↔
      m.current_state ∉ m.septuple.final_states ∧
      (m.get_transition = none ∨
       ∃ t, m.get_transition = some t ∧ m.current_position = 0 ∧
            t.move_to = some Movement.L))
  ∧ (m.acceptance = none ↔
      m.current_state ∉ m.septuple.final_states ∧
      ∃ t, m.get_transition = some t ∧
           ¬ (m.current_position = 0 ∧ t.move_to = some Movement.L)) := by
  unfold Machine.acceptance
  cases hf : m.in_final_state
  case true =>
    have hmem := (in_final_state_iff m).mp hf
    simp_all
  case false =>
    have hnf : m.current_state ∉ m.septuple.final_states := by
      intro hmem
      rw [(in_final_state_iff m).mpr hmem] at hf
      cases hf
    rcases hg : m.get_transition with _ | t
    · simp_all
    · cases hl : m.limited_left t
      · have hnl := hl ▸ (limited_left_iff m t)
        simp_all
      · have hyes := (limited_left_iff m t).mp hl
        simp_all

/-- Witness for C3: the left-limited configuration `mW2` is rejected via the
characterization. -/
theorem acceptance_characterization_witness :
    mW2.acceptance = some Acceptance.Rejected :=
  ((acceptance_characterization mW2).2.1).mpr
    ⟨by decide, Or.inr ⟨⟨'b', "q0", some Movement.L⟩, by decide, rfl, rfl⟩⟩

/-- C2: `transition()` returns exactly what `acceptance()` reports; on a
terminal verdict it leaves the machine (tape, position, state, undo ledger)
unchanged, so calling it again yields the same verdict with no mutation; when
`acceptance()` reports running it applies exactly one transition (the looked
up one) and pushes its reversal record. -/
theorem transition_spec (m : Machine) :
    (m.transition).1 = m.acceptance
  ∧ (∀ a, m.acceptance = some a → (m.transition).2 = m)
  ∧ (m.acceptance = none →
      ∃ t, m.get_transition = some t ∧
        (m.transition).2 = { (m.apply t).2 with undos := (m.apply t).1 :: m.undos })
  ∧ (∀ a, m.acceptance = some a → ((m.transition).2).transition = (some a, m)) := by
  refine ⟨transition_fst m, ?_, ?_, ?_⟩
  · intro a ha
    rw [transition_terminal m a ha]
  · intro ha
    have hfst : (m.transition).1 = none := (transition_fst m).trans ha
    have h1 : m.transition = (none, (m.transition).2) := by
      rw [← hfst]
    obtain ⟨-, t, hg, -, hm⟩ := transition_none_elim m _ h1
    exact ⟨t, hg, hm⟩
  · intro a ha
    rw [transition_terminal m a ha]
    exact transition_terminal m a ha

/-- Witness for C2: the terminal machine `mW1` is a fixed point of
`transition`, and the running machine `mW0` takes the applied-transition
branch. -/
theorem transition_spec_witness :
    ((mW1.transition).2 = mW1
      ∧ ((mW1.transition).2).transition = (some Acceptance.Accepted, mW1))
  ∧ (∃ t, mW0.get_transition = some t ∧
        (mW0.transition).2 = { (mW0.apply t).2 with undos := (mW0.apply t).1 :: mW0.undos }) :=
  ⟨⟨(transition_spec mW1).2.1 Acceptance.Accepted (by decide),
    (transition_spec mW1).2.2.2 Acceptance.Accepted (by decide)⟩,
   (transition_spec mW0).2.2.1 (by decide)⟩

/-- C5: at position `0`, in a non-final state, with an applicable transition
that moves left, `acceptance()` is `Rejected` and `transition()` returns
`Rejected` leaving the whole machine unchanged. -/
theorem left_bound_rejected (m : Machine) (t : Transition)
    (hpos : m.current_position = 0)
    (hfin : m.current_state ∉ m.septuple.final_states)
    (hget : m.get_transition = some t)
    (hmv : t.move_to = some Movement.L) :
    m.acceptance = some Acceptance.Rejected
  ∧ m.transition = (some Acceptance.Rejected, m) := by
  have hf : m.in_final_state = false := by
    cases hIFS : m.in_final_state
    · rfl
    · exact absurd ((in_final_state_iff m).mp hIFS) hfin
  have hacc : m.acceptance = some Acceptance.Rejected := by
    unfold Machine.acceptance
    simp only [hf, Bool.false_eq_true, if_false, hget]
    rw [(limited_left_iff m t).mpr ⟨hpos, hmv⟩]
    simp
  exact ⟨hacc, transition_terminal m _ hacc⟩

/-- Witness for C5 at the configuration `mW2`. -/
theorem left_bound_rejected_witness :
    mW2.acceptance = some Acceptance.Rejected
  ∧ mW2.transition = (some Acceptance.Rejected, mW2) :=
  left_bound_rejected mW2 ⟨'b', "q0", some Movement.L⟩
    (by decide) (by decide) (by decide) (by decide)

/-- C4: `Machine::new` fails with `InvalidSymbolError` iff some symbol of
the initial tape is outside `input_symbols` (so it succeeds on every tape
drawn from `input_symbols`, the empty tape included); on success an empty
tape is replaced by `[blank_symbol]`, the position is `0`, the state is the
septuple's initial state, and the undo ledger is empty. -/
theorem new_spec (sep : Septuple) (tape : List Char) :
    (Machine.new sep tape = .error ⟨⟩ ↔ ∃ c ∈ tape, c ∉ sep.input_symbols)
  ∧ (∀ m, Machine.new sep tape = .ok m →
      m.septuple = sep
      ∧ m.tape = (if tape.isEmpty then [sep.blank_symbol] else tape)
      ∧ m.current_position = 0
      ∧ m.current_state = sep.initial_state
      ∧ m.undos = []) := by
  unfold Machine.new
  by_cases h : ∃ c ∈ tape, c ∉ sep.input_symbols
  · rw [if_pos h]
    refine ⟨by simp [h], ?_⟩
    intro m hm
    cases hm
  · rw [if_neg h]
    refine ⟨by simp [h], ?_⟩
    intro m hm
    injection hm with hm
    subst hm
    refine ⟨rfl, ?_, rfl, rfl, rfl⟩
    by_cases he : tape.isEmpty
    · simp_all [List.isEmpty_iff]
    · simp_all

/-- Witness for C4: a rejected tape and the accepted construction `mW0`. -/
theorem new_spec_witness :
    (Machine.new sepW ['z'] = .error ⟨⟩)
  ∧ (mW0.septuple = sepW
      ∧ mW0.tape = (if List.isEmpty ['a'] then [sepW.blank_symbol] else ['a'])
      ∧ mW0.current_position = 0
      ∧ mW0.current_state = sepW.initial_state
      ∧ mW0.undos = []) :=
  ⟨(new_spec sepW ['z']).1.mpr ⟨'z', by decide, by decide⟩,
   (new_spec sepW ['a']).2 mW0 (by decide)⟩


lemma undo_transition_cons (m : Machine) (u : Undo) (rest : List Undo)
    (h : m.undos = u :: rest) :
    m.undo_transition =
      (.ok (), { m with tape := (rewind m.tape m.current_position u).1
                        current_position := undoPos m.current_position u
                        current_state := u.state
                        undos := rest }) := by
  cases m with
  | mk sep pos st tp us =>
    simp only at h
    subst h
    unfold Machine.undo_transition rewind undoPos
    rfl

/-- C6: a step applying a right-moving transition appends exactly one
`blank_symbol` cell when the head is at the last valid index (and never grows
the tape otherwise), and undoing that growing step removes exactly the
appended cell, restoring the prior tape length. -/
theorem right_step_growth (m : Machine) (t : Transition) (m' : Machine)
    (hget : m.get_transition = some t)
    (hmv : t.move_to = some Movement.R)
    (hstep : m.transition = (none, m')) :
    (m.current_position = m.tape.length - 1 →
        m'.tape = (m.tape.set m.current_position t.write_symbol)
                    ++ [m.septuple.blank_symbol]
      ∧ m'.tape.length = m.tape.length + 1
      ∧ ((m'.undo_transition).2).tape.length = m.tape.length)
  ∧ (m.current_position ≠ m.tape.length - 1 → m'.tape.length = m.tape.length) := by
  obtain ⟨-, t', hg', -, hm⟩ := transition_none_elim m m' hstep
  rw [hget] at hg'
  injection hg' with hg'
  subst hg'
  unfold Machine.apply at hm
  simp only [hmv, List.length_set] at hm
  by_cases hend : m.current_position = m.tape.length - 1
  · rw [if_pos hend] at hm
    subst hm
    refine ⟨fun _ => ⟨rfl, ?_, ?_⟩, fun hne => absurd hend hne⟩
    · simp
    · rw [undo_transition_cons _ ⟨true, some Movement.L, m.tape.getD m.current_position 'A',
        m.current_state⟩ _ rfl]
      simp [rewind, undoPos, List.dropLast_concat]
  · rw [if_neg hend] at hm
    subst hm
    refine ⟨fun heq => absurd heq hend, fun _ => ?_⟩
    simp

/-- Witness for C6: the step from `mW0` to `mW1` grows the tape by one blank
and its undo restores the length. -/
theorem right_step_growth_witness :
    mW1.tape = (mW0.tape.set mW0.current_position tW.write_symbol)
                 ++ [mW0.septuple.blank_symbol]
  ∧ mW1.tape.length = mW0.tape.length + 1
  ∧ ((mW1.undo_transition).2).tape.length = mW0.tape.length :=
  (right_step_growth mW0 tW mW1 (by decide) (by decide) (by decide)).1 (by decide)


lemma apply_step_facts (m : Machine) (t : Transition)
    (hin : m.current_position < m.tape.length)
    (hlim : m.limited_left t = false) :
    ((m.apply t).2).septuple = m.septuple
  ∧ ((m.apply t).2).undos = m.undos
  ∧ ((m.apply t).2).current_position < ((m.apply t).2).tape.length
  ∧ goodUndo ((m.apply t).2).tape ((m.apply t).2).current_position ((m.apply t).1)
  ∧ rewind ((m.apply t).2).tape ((m.apply t).2).current_position ((m.apply t).1)
      = (m.tape, m.current_position)
  ∧ ((m.apply t).1).state = m.current_state := by
  have hnl : ¬(m.current_position = 0 ∧ t.move_to = some Movement.L) := by
    rw [← limited_left_iff m t, hlim]
    simp
  have hrestore : (m.tape.set m.current_position t.write_symbol).set m.current_position
      (m.tape[m.current_position]?.getD 'A') = m.tape := by
    rw [List.set_set, ← List.getD_eq_getElem?_getD]
    exact set_getD_eq_self _ _ _ hin
  unfold Machine.apply
  rcases hmv : t.move_to with _ | mv
  · simp only [goodUndo, rewind, undoPos]
    refine ⟨trivial, trivial, by simpa using hin, ⟨by simp, ?_⟩, ?_, trivial⟩
    · simpa using hin
    · simp [hrestore]
  · cases mv
    case R =>
      simp only [List.length_set]
      by_cases hend : m.current_position = m.tape.length - 1
      · rw [if_pos hend]
        simp only [goodUndo, rewind, undoPos]
        refine ⟨trivial, trivial, ?_, ⟨by simp, ?_⟩, ?_, trivial⟩
        · simp only [List.length_append, List.length_set, List.length_cons,
            List.length_nil]
          omega
        · simp [List.dropLast_concat]
          omega
        · simp [List.dropLast_concat, hrestore]
      · rw [if_neg hend]
        simp only [goodUndo, rewind, undoPos]
        refine ⟨trivial, trivial, ?_, ⟨by simp, ?_⟩, ?_, trivial⟩
        · simp only [List.length_set]
          omega
        · simp [List.length_set]
          omega
        · simp [hrestore]
    case L =>
      have hp0 : m.current_position ≠ 0 := fun h0 => hnl ⟨h0, hmv⟩
      have hp1 : m.current_position - 1 + 1 = m.current_position := by omega
      simp only [goodUndo, rewind, undoPos, hp1]
      refine ⟨trivial, trivial, ?_, ⟨fun h => by simp at h, ?_⟩, ?_, trivial⟩
      · simp only [List.length_set]
        omega
      · simp only [Bool.false_eq_true, if_false, List.length_set]
        exact hin
      · simp [hrestore]


lemma machine_eq (a b : Machine)
    (h1 : a.septuple = b.septuple) (h2 : a.current_position = b.current_position)
    (h3 : a.current_state = b.current_state) (h4 : a.tape = b.tape)
    (h5 : a.undos = b.undos) : a = b := by
  cases a
  cases b
  simp_all

lemma undo_transition_nil (m : Machine) (h : m.undos = []) :
    m.undo_transition = (.error ⟨⟩, m) := by
  cases m with
  | mk sep pos st tp us =>
    simp only at h
    subst h
    rfl

lemma validStack_inrange (tape : List Char) (pos : Nat) (us : List Undo)
    (h : ValidStack tape pos us) : pos < tape.length := by
  cases us with
  | nil => exact h
  | cons u rest => exact h.1

lemma step_undo_inverse (m m' : Machine)
    (hin : m.current_position < m.tape.length)
    (hstep : m.transition = (none, m')) :
    m'.undo_transition = (.ok (), m)
  ∧ m'.current_position < m'.tape.length := by
  obtain ⟨-, t, hg, hl, hm⟩ := transition_none_elim m m' hstep
  obtain ⟨hsep, hus, hlt, hgood, hrew, hstate⟩ := apply_step_facts m t hin hl
  subst hm
  refine ⟨?_, hlt⟩
  rw [undo_transition_cons _ (m.apply t).1 m.undos rfl]
  have hmach : ({ { (m.apply t).2 with undos := (m.apply t).1 :: m.undos } with
      tape := (rewind ((m.apply t).2).tape ((m.apply t).2).current_position ((m.apply t).1)).1
      current_position := undoPos ((m.apply t).2).current_position ((m.apply t).1)
      current_state := ((m.apply t).1).state
      undos := m.undos } : Machine) = m := by
    refine machine_eq _ _ hsep ?_ hstate ?_ rfl
    · exact congrArg Prod.snd hrew
    · exact congrArg Prod.fst hrew
  rw [hmach]

lemma validStack_transition (m : Machine)
    (h : ValidStack m.tape m.current_position m.undos) :
    ValidStack ((m.transition).2).tape ((m.transition).2).current_position
      ((m.transition).2).undos := by
  rcases ha : (m.transition).1 with _ | a
  case some =>
    have hterm := transition_terminal m a (by rw [← transition_fst m, ha])
    rw [hterm]
    exact h
  case none =>
    have hstep : m.transition = (none, (m.transition).2) := by rw [← ha]
    obtain ⟨-, t, hg, hl, hm⟩ := transition_none_elim m _ hstep
    have hin : m.current_position < m.tape.length := validStack_inrange _ _ _ h
    obtain ⟨hsep, hus, hlt, hgood, hrew, hstate⟩ := apply_step_facts m t hin hl
    rw [hm]
    refine ⟨hlt, hgood, ?_⟩
    rw [hrew]
    exact h

lemma validStack_undo (m : Machine)
    (h : ValidStack m.tape m.current_position m.undos) :
    ValidStack ((m.undo_transition).2).tape ((m.undo_transition).2).current_position
      ((m.undo_transition).2).undos := by
  cases hu : m.undos with
  | nil =>
    rw [undo_transition_nil m hu]
    exact h
  | cons u rest =>
    rw [undo_transition_cons m u rest hu]
    rw [hu] at h
    exact h.2.2

lemma reachable_validStack (sep : Septuple) (m : Machine) (h : Reachable sep m) :
    ValidStack m.tape m.current_position m.undos := by
  induction h with
  | new tape m hnew =>
    unfold Machine.new at hnew
    by_cases hbad : ∃ c ∈ tape, c ∉ sep.input_symbols
    · rw [if_pos hbad] at hnew
      cases hnew
    · rw [if_neg hbad] at hnew
      injection hnew with hnew
      subst hnew
      cases tape with
      | nil => simp [ValidStack]
      | cons c cs => simp [ValidStack]
  | step m hm ih => exact validStack_transition m ih
  | undo m hm ih => exact validStack_undo m ih

lemma reachable_mW1 : Reachable sepW mW1 := by
  have h0 : Reachable sepW mW0 := Reachable.new ['a'] mW0 (by decide)
  have h1 := Reachable.step mW0 h0
  rw [show (mW0.transition).2 = mW1 from by decide] at h1
  exact h1

lemma runUndos_succ (m : Machine) (n : Nat) :
    runUndos m (n + 1) =
      match runUndos m n with
      | some m₁ => runUndos m₁ 1
      | none => none := by
  induction n generalizing m with
  | zero => rfl
  | succ k ih =>
    rcases hu : m.undo_transition with ⟨r, m₁⟩
    cases r with
    | ok v =>
      rw [show runUndos m (k + 1 + 1) = runUndos m₁ (k + 1) from by
            simp only [runUndos]
            rw [hu],
          show runUndos m (k + 1) = runUndos m₁ k from by
            simp only [runUndos]
            rw [hu]]
      exact ih m₁
    | error e =>
      rw [show runUndos m (k + 1 + 1) = none from by
            simp only [runUndos]
            rw [hu],
          show runUndos m (k + 1) = none from by
            simp only [runUndos]
            rw [hu]]

lemma round_trip_aux (n : Nat) : ∀ m m' : Machine,
    m.current_position < m.tape.length → runSteps m n = some m' →
    m'.current_position < m'.tape.length ∧ runUndos m' n = some m := by
  induction n with
  | zero =>
    intro m m' hin h
    injection h with h
    subst h
    exact ⟨hin, rfl⟩
  | succ k ih =>
    intro m m' hin h
    rcases ht : m.transition with ⟨r, m₁⟩
    cases r with
    | some a =>
      rw [runSteps, ht] at h
      cases h
    | none =>
      have h' : runSteps m₁ k = some m' := by
        rw [runSteps, ht] at h
        exact h
      obtain ⟨hundo, hin₁⟩ := step_undo_inverse m m₁ hin ht
      obtain ⟨hin', hrun⟩ := ih m₁ m' hin₁ h'
      refine ⟨hin', ?_⟩
      rw [runUndos_succ, hrun]
      simp [runUndos, hundo]

/-- C1: from any machine reachable from `Machine::new`, `n` applications of
`transition` that all keep running followed by `n` successful
`undo_transition` calls restore the machine exactly (tape, position, state,
and ledger included). -/
theorem round_trip (sep : Septuple) (m m' : Machine) (n : Nat)
    (h : Reachable sep m) (hs : runSteps m n = some m') :
    runUndos m' n = some m :=
  (round_trip_aux n m m'
    (validStack_inrange _ _ _ (reachable_validStack sep m h)) hs).2

/-- Witness for C1: one step from `mW0` and one undo lead back to `mW0`. -/
theorem round_trip_witness : runUndos mW1 1 = some mW0 :=
  round_trip sepW mW0 mW1 1 (Reachable.new ['a'] mW0 (by decide)) (by decide)

/-- C9: on every machine reachable from `Machine::new` through any
interleaving of `transition` and `undo_transition`, the head position is a
valid index into the tape, so the tape is never empty. -/
theorem head_in_range (sep : Septuple) (m : Machine) (h : Reachable sep m) :
    m.current_position < m.tape.length ∧ m.tape ≠ [] := by
  have hin := validStack_inrange _ _ _ (reachable_validStack sep m h)
  refine ⟨hin, ?_⟩
  intro hnil
  rw [hnil] at hin
  simp at hin

/-- Witness for C9 at the reachable machine `mW1`. -/
theorem head_in_range_witness :
    mW1.current_position < mW1.tape.length ∧ mW1.tape ≠ [] :=
  head_in_range sepW mW1 reachable_mW1

/-- C10: on every reachable machine, the topmost reversal record only
describes well-defined operations: a recorded `Movement::L` is never undone
at position `0` (no `usize` underflow), and after the recorded pop and
movement the index used to restore the old symbol is within the tape. -/
theorem undo_records_safe (sep : Septuple) (m : Machine) (h : Reachable sep m)
    (u : Undo) (rest : List Undo) (hu : m.undos = u :: rest) :
    (u.movement = some Movement.L → 0 < m.current_position)
  ∧ undoPos m.current_position u
      < (if u.pop then m.tape.dropLast else m.tape).length := by
  have hv := reachable_validStack sep m h
  rw [hu] at hv
  exact hv.2.1

/-- Witness for C10 at the reachable machine `mW1`, whose ledger holds one
record. -/
theorem undo_records_safe_witness :
    ((⟨true, some Movement.L, 'a', "q0"⟩ : Undo).movement = some Movement.L →
      0 < mW1.current_position)
  ∧ undoPos mW1.current_position ⟨true, some Movement.L, 'a', "q0"⟩
      < (if (⟨true, some Movement.L, 'a', "q0"⟩ : Undo).pop then mW1.tape.dropLast
         else mW1.tape).length :=
  undo_records_safe sepW mW1 reachable_mW1 ⟨true, some Movement.L, 'a', "q0"⟩ [] rfl

/-- Counterexample to C8 as stated: on `sepC8`, whose single entry has its
key symbol outside the alphabet and its next state outside the state set,
`Septuple::valid` reports the symbol violation while the order the claim
states (key state, next state, key symbol, write symbol) would report the
state violation. -/
theorem valid_order_counterexample :
    sepC8.valid = .error SepError.TransitionSymbolNotInAlphabet
  ∧ validClaimOrder sepC8 = .error SepError.TransitionStateNotInStates
  ∧ sepC8.valid ≠ validClaimOrder sepC8 := by decide

lemma checkEntry_eq (s : Septuple) (e : (String × Char) × Transition) :
    checkEntry s e =
      match entryViolation s e with
      | some err => Except.error err
      | none => Except.ok () := by
  unfold checkEntry entryViolation
  by_cases h1 : e.1.1 ∉ s.states
  · rw [if_pos h1, if_pos h1]
  · rw [if_neg h1, if_neg h1]
    by_cases h2 : e.1.2 ∉ s.alphabet
    · rw [if_pos h2, if_pos h2]
    · rw [if_neg h2, if_neg h2]
      by_cases h3 : e.2.next_state ∉ s.states
      · rw [if_pos h3, if_pos h3]
      · rw [if_neg h3, if_neg h3]
        by_cases h4 : e.2.write_symbol ∉ s.alphabet
        · rw [if_pos h4, if_pos h4]
        · rw [if_neg h4, if_neg h4]

lemma checkEntries_eq (s : Septuple) (l : List ((String × Char) × Transition)) :
    checkEntries s l =
      match l.findSome? (entryViolation s) with
      | some err => Except.error err
      | none => Except.ok () := by
  induction l with
  | nil => rfl
  | cons e rest ih =>
    rw [List.findSome?_cons]
    unfold checkEntries
    rw [checkEntry_eq]
    cases hv : entryViolation s e with
    | none => simpa using ih
    | some err => simp

/-- C8 (amended): `Septuple::valid` checks invariants 1-5 in that fixed
order and returns the first violation, where within a single transition
entry the membership checks follow the order: its key state, its key symbol,
its action's next state, its action's write symbol. -/
theorem valid_order_amended (s : Septuple) : s.valid = validSpecOrdered s := by
  unfold Septuple.valid validSpecOrdered
  by_cases h1 : s.blank_symbol ∉ s.alphabet
  · rw [if_pos h1, if_pos h1]
  · rw [if_neg h1, if_neg h1]
    by_cases h2 : ¬ (∀ c ∈ s.input_symbols, c ∈ s.alphabet)
    · rw [if_pos h2, if_pos h2]
    · rw [if_neg h2, if_neg h2]
      by_cases h3 : s.initial_state ∉ s.states
      · rw [if_pos h3, if_pos h3]
      · rw [if_neg h3, if_neg h3]
        by_cases h4 : ¬ (∀ q ∈ s.final_states, q ∈ s.states)
        · rw [if_pos h4, if_pos h4]
        · rw [if_neg h4, if_neg h4]
          exact checkEntries_eq s s.transition_map

end TM
